import Mathlib

/-!
Verification development for the `commit_msg` conventional-commit
message validator (`src/commit_msg/commit_msg.py`).

The program is embedded shallowly:

* raw message text is a `List Char`;
* a line is a `List Char` (lines produced by splitting on a newline never
  contain a newline character, which we prove);
* each Python function becomes a Lean function of the same name
  (in lowerCamelCase), translated clause by clause;
* the regular expressions of the source are compiled by hand into
  deterministic scanning functions; determinization notes are given at each
  definition (the patterns involved never need backtracking beyond a bounded
  lookahead, which is argued in the comments);
* the only I/O of the program (reading and rewriting the message file) is
  made explicit as a trace of file operations, so that statements about the
  rewrite side effect can be expressed;
* Python's `ValidationError` with its distinct human-readable messages is
  embedded as the inductive type `Reason`, one constructor per distinct
  message of the source, carrying the dynamic parts of the message.

Whitespace predicates model the ASCII behaviour of Python's `str.strip`
and of `\s` in the `re` module; the messages the hook handles are treated
as ASCII text (the source reads the file as UTF-8, but every rule of the
validator is about ASCII characters).
-/

namespace CommitMsg

/-- Decidable equality of outcomes, so that concrete runs of the embedded
validator can be checked by `decide`. -/
instance instDecEqExcept {ε α : Type} [DecidableEq ε] [DecidableEq α] :
    DecidableEq (Except ε α) := fun a b =>
  match a, b with
  | .ok x, .ok y =>
    if h : x = y then .isTrue (h ▸ rfl)
    else .isFalse (fun he => h (Except.ok.inj he))
  | .error x, .error y =>
    if h : x = y then .isTrue (h ▸ rfl)
    else .isFalse (fun he => h (Except.error.inj he))
  | .ok _, .error _ => .isFalse (fun he => Except.noConfusion he)
  | .error _, .ok _ => .isFalse (fun he => Except.noConfusion he)

/-- A line of the commit message. -/
abbrev Line := List Char

/-- ASCII whitespace, as matched by `\s` in the source's regexes and by
`str.strip` (space, tab, newline, carriage return, vertical tab, form feed). -/
def isPySpace (c : Char) : Bool :=
  c = ' ' || c = '\t' || c = '\n' || c = '\r' || c = '\x0b' || c = '\x0c'

/-- `raw.replace("\r\n", "\n")`: leftmost, non-overlapping replacement of
CRLF pairs by a single newline. -/
def replaceCRLF : List Char → List Char
  | [] => []
  | [c] => [c]
  | c :: d :: rest =>
    if c = '\r' ∧ d = '\n' then '\n' :: replaceCRLF rest
    else c :: replaceCRLF (d :: rest)

/-- `.replace("\r", "\n")`: every remaining carriage return becomes a newline. -/
def replaceCR : List Char → List Char
  | [] => []
  | c :: rest => (if c = '\r' then '\n' else c) :: replaceCR rest

/-- `normalized.split("\n")`: split into lines at newline characters.
Like Python's `str.split` with an explicit separator, the empty string
yields `[""]` and a trailing newline yields a trailing empty line. -/
def splitLines : List Char → List Line
  | [] => [[]]
  | c :: rest =>
    if c = '\n' then [] :: splitLines rest
    else
      match splitLines rest with
      | l :: ls => (c :: l) :: ls
      | [] => [[c]]

/-- `"\n".join(lines)`. -/
def joinLines : List Line → List Char
  | [] => []
  | [l] => l
  | l :: ls => l ++ '\n' :: joinLines ls

/-- `re.match(r"^[\s]*#", line)`: optional leading whitespace then `#`. -/
def isCommentLine : Line → Bool
  | [] => false
  | c :: rest =>
    if c = '#' then true
    else if isPySpace c then isCommentLine rest
    else false

/-- `re.match(r"^\$", line)`. -/
def isDollarLine : Line → Bool
  | c :: _ => c = '$'
  | [] => false

/-- `re.match(r"^\[\$", line)`. -/
def isBracketDollarLine : Line → Bool
  | c :: d :: _ => c = '[' ∧ d = '$'
  | _ => false

/-- A line survives normalization iff it is neither a comment line nor a
`$`/`[$` template-artifact line. -/
def keepLine (l : Line) : Bool :=
  !(isCommentLine l || isDollarLine l || isBracketDollarLine l)

/-- `line.strip()` is empty: the line is blank. -/
def isBlank (l : Line) : Bool := l.all isPySpace

/-- `sanitized.endswith("\n")`. -/
def endsWithNL (s : List Char) : Bool := s.getLast? == some '\n'

/-- `if not sanitized.endswith("\n"): sanitized = f"{sanitized}\n"`. -/
def ensureNL (s : List Char) : List Char :=
  if endsWithNL s then s else s ++ ['\n']

/-- The line sequence `normalize_message` computes in memory: CRLF and CR
collapsed to LF, comment and template lines removed. -/
def normalizeLines (raw : List Char) : List Line :=
  (splitLines (replaceCR (replaceCRLF raw))).filter keepLine

/-- The text `normalize_message` writes back to the message file:
the kept lines rejoined, with a newline appended when the join does not
already end in one. -/
def writtenContent (raw : List Char) : List Char :=
  ensureNL (joinLines (normalizeLines raw))

/-- A file operation performed by the hook on the message file. -/
inductive FileOp where
  | readF
  | writeF (content : List Char)
deriving DecidableEq

/-- `normalize_message(msg_path)`: reads the file, rewrites it with the
sanitized content, and returns the kept lines.  The file operations are
returned as an explicit trace, in the order the source performs them. -/
def normalizeMessage (raw : List Char) : List FileOp × List Line :=
  ([FileOp.readF, FileOp.writeF (writtenContent raw)], normalizeLines raw)

/-- Does `s` start with the literal word `p`?  (`str.startswith`.) -/
def leadsWith : List Char → List Char → Bool
  | [], _ => true
  | _ :: _, [] => false
  | p :: ps, c :: cs => p = c && leadsWith ps cs

/-- Strip the literal word `p` from the front of `s`, if present. -/
def dropLead : List Char → List Char → Option (List Char)
  | [], s => some s
  | _ :: _, [] => none
  | p :: ps, c :: cs => if p = c then dropLead ps cs else none

/-- `AUTO_BYPASS_PREFIXES = ("Merge ", "Revert ", "fixup! ", "squash! ")`,
spelled as character lists. -/
def bypassHeads : List (List Char) :=
  [['M', 'e', 'r', 'g', 'e', ' '], ['R', 'e', 'v', 'e', 'r', 't', ' '],
   ['f', 'i', 'x', 'u', 'p', '!', ' '], ['s', 'q', 'u', 'a', 's', 'h', '!', ' ']]

/-- `header.startswith(AUTO_BYPASS_PREFIXES)`. -/
def startsWithAnyBypass (h : Line) : Bool :=
  bypassHeads.any (fun p => leadsWith p h)

/-- One distinct failure reason per distinct message raised through
`_raise_invalid` in the source, with the dynamic parts of the f-strings as
constructor arguments.  `emptyMessage` is `"empty commit message"`;
`subjectCharset` is the charset message of `validate_header`, and
`subjectBang` is the separate `"'!' is not allowed"` message two lines
below it. -/
inductive Reason where
  | emptyMessage
  | malformedHeader
  | invalidType (ty : List Char)
  | invalidScope (scope : List Char)
  | subjectLength (n : Nat)
  | subjectTrailingPeriod
  | subjectCasing
  | subjectCharset
  | subjectBang
  | missingBreakingFooter
  | bodyLineTooLong (lineNo : Nat)
  | forbiddenIgnoreMarker
  | forbiddenDiffContent
deriving DecidableEq

/-- `find_header`: index-tracking scan for the first non-blank line. -/
def findHeaderAux : List Line → Nat → Option (Line × Nat)
  | [], _ => none
  | l :: rest, i => if isBlank l then findHeaderAux rest (i + 1) else some (l, i)

/-- `find_header(lines)`: first non-blank line with its index; `none` embeds
the `"empty commit message"` error path. -/
def findHeader (lines : List Line) : Option (Line × Nat) :=
  findHeaderAux lines 0

/-- `[A-Za-z-]` — the footer-token character class of `FOOTER_RE`
(letters and hyphens; digits are *not* in the class). -/
def isFooterTokenChar (c : Char) : Bool :=
  ('A' ≤ c && c ≤ 'Z') || ('a' ≤ c && c ≤ 'z') || c = '-'

/-- The literal alternative `BREAKING CHANGE` of `FOOTER_RE`. -/
def breakingWord : List Char :=
  ['B', 'R', 'E', 'A', 'K', 'I', 'N', 'G', ' ', 'C', 'H', 'A', 'N', 'G', 'E']

/-- `BREAKING CHANGE` with the colon that follows it in `FOOTER_RE`. -/
def breakingColon : List Char := breakingWord ++ [':']

/-- `FOOTER_RE.match(line)` with `FOOTER_RE = ^(BREAKING CHANGE|[A-Za-z-]+):\s`.
Determinization: the first alternative is a literal; in the second, the token
class excludes `:`, so the maximal token run is the only candidate, and when
the literal alternative fails the token run of a `BREAKING CHANGE`-prefixed
line stops at the space, so the alternatives can be tried independently. -/
def footerMatches (l : Line) : Bool :=
  (match dropLead breakingColon l with
   | some (c :: _) => isPySpace c
   | _ => false)
  ||
  (if l.takeWhile isFooterTokenChar = [] then false
   else
     match l.dropWhile isFooterTokenChar with
     | c :: rest =>
       if c = ':' then
         match rest with
         | c2 :: _ => isPySpace c2
         | [] => false
       else false
     | [] => false)

/-- The backward scan of `collect_footers`: `xs` is the remaining part of the
reversed line list, `i` the index (in the original list) of its head, `acc`
the current `first_footer_idx`.  Blank lines are skipped, a line matching
`FOOTER_RE` lowers the accumulator to its index and the scan continues, and
the first other line breaks the scan. -/
def ffiAux : List Line → Nat → Nat → Nat
  | [], _, acc => acc
  | l :: rest, i, acc =>
    if isBlank l then ffiAux rest (i - 1) acc
    else if footerMatches l then ffiAux rest (i - 1) i
    else acc

/-- `first_footer_idx` as computed by `collect_footers(lines, _)`. -/
def firstFooterIdx (lines : List Line) : Nat :=
  ffiAux lines.reverse (lines.length - 1) lines.length

/-- The footer list of `collect_footers`: the non-blank lines from
`first_footer_idx` on. -/
def footersOf (lines : List Line) : List Line :=
  (lines.drop (firstFooterIdx lines)).filter (fun l => !isBlank l)

/-- `collect_footers(lines, start_idx)`; the `start_idx` argument is unused
in the source. -/
def collectFooters (lines : List Line) (_startIdx : Nat) : List Line × Nat :=
  (footersOf lines, firstFooterIdx lines)

/-- `[a-z]`. -/
def isLowerAZ (c : Char) : Bool := 'a' ≤ c && c ≤ 'z'

/-- The scope character class of `HEADER_RE` and of the `re.fullmatch`
check in `validate_header`: letters, digits, slash, hyphen. -/
def isScopeChar (c : Char) : Bool :=
  ('A' ≤ c && c ≤ 'Z') || ('a' ≤ c && c ≤ 'z') || ('0' ≤ c && c ≤ '9') ||
    c = '/' || c = '-'

/-- `[a-z0-9 \-_/():,#+]` — the allowed subject character class of
`INVALID_SUBJECT_CHARS_RE`. -/
def allowedSubjectChar (c : Char) : Bool :=
  ('a' ≤ c && c ≤ 'z') || ('0' ≤ c && c ≤ '9') || c = ' ' || c = '-' ||
    c = '_' || c = '/' || c = '(' || c = ')' || c = ':' || c = ',' ||
    c = '#' || c = '+'

/-- The `\s*(.+)$` tail of `HEADER_RE`, applied after the colon.  Greedy
`\s*` takes the maximal whitespace run; if nothing is left, the regex
backtracks by exactly one character, which then forms the subject.  Header
lines contain no newline (they come from splitting on newlines), so `$` is
end-of-string and `.` is any character here. -/
def matchSubject (r : List Char) : Option (List Char) :=
  match r.dropWhile isPySpace with
  | [] =>
    match r.getLast? with
    | some c => if c = '\n' then none else some [c]
    | none => none
  | t => some t

/-- The `(!)?:\s*(.+)$` tail of `HEADER_RE`, returning the bang group
(`"!"` or `""`) and the subject.  A bang not followed by a colon fails both
with and without backtracking into the optional group, because `:` cannot
match `!`. -/
def matchTail : List Char → Option (List Char × List Char)
  | c :: rest =>
    if c = '!' then
      match rest with
      | c2 :: rest2 =>
        if c2 = ':' then (matchSubject rest2).map (fun subj => (['!'], subj))
        else none
      | [] => none
    else if c = ':' then
      (matchSubject rest).map (fun subj => (([] : List Char), subj))
    else none
  | [] => none

/-- `HEADER_RE.match(header)` with
`HEADER_RE = ^([a-z]+)(\(([^)]+)\))?(!)?:\s*(.+)$`, returning the groups
`(type, scope, bang, subject)` (absent groups as `""`, exactly like the
`or ""` in the source).  Determinization: `([a-z]+)` cannot give characters
back, since everything that may follow it (`(`, `!`, `:`) is not a lowercase
letter; `[^)]+` runs up to the first `)` and shorter matches would put a
non-`)` character in front of the required `)`; and when the optional scope
group fails on a `(`-headed remainder, the mandatory `:`/`!` cannot match
the `(` either, so the whole match fails. -/
def headerMatch (s : List Char) :
    Option (List Char × List Char × List Char × List Char) :=
  let ty := s.takeWhile isLowerAZ
  let rest1 := s.dropWhile isLowerAZ
  if ty = [] then none
  else
    match rest1 with
    | c :: r =>
      if c = '(' then
        match r.takeWhile (fun d => !(d = ')')), r.dropWhile (fun d => !(d = ')')) with
        | sc :: scs, d :: r3 =>
          if d = ')' then (matchTail r3).map (fun bs => (ty, sc :: scs, bs.1, bs.2))
          else none
        | _, _ => none
      else (matchTail rest1).map (fun bs => (ty, ([] : List Char), bs.1, bs.2))
    | [] => none

/-- `ALLOWED_TYPES`. -/
def allowedTypes : List (List Char) :=
  ["feat".toList, "fix".toList, "refactor".toList, "fmt".toList,
   "test".toList, "docs".toList, "build".toList, "chore".toList]

/-- `subject[0].islower()` guarded by `not subject` (ASCII). -/
def firstIsLowerAZ : List Char → Bool
  | [] => false
  | c :: _ => isLowerAZ c

/-- `validate_header(header)`: grammar match followed by the ordered
checks of the source, first failure wins. -/
def validateHeader (header : Line) :
    Except Reason (List Char × List Char × List Char × List Char) :=
  match headerMatch header with
  | none => .error .malformedHeader
  | some (ty, scope, bang, subject) =>
    if ty ∉ allowedTypes then .error (.invalidType ty)
    else if scope ≠ [] ∧ ¬(scope.all isScopeChar = true) then
      .error (.invalidScope scope)
    else if subject.length < 1 ∨ 50 < subject.length then
      .error (.subjectLength subject.length)
    else if subject.getLast? = some '.' then .error .subjectTrailingPeriod
    else if ¬(firstIsLowerAZ subject = true) then .error .subjectCasing
    else if ¬(subject.all allowedSubjectChar = true) then .error .subjectCharset
    else if '!' ∈ subject then .error .subjectBang
    else .ok (ty, scope, bang, subject)

/-- The window scan of `validate_body`: `i` is the current index, the second
argument the number of indices still to visit. -/
def validateBodyAux (lines : List Line) : Nat → Nat → Except Reason Unit
  | _, 0 => .ok ()
  | i, n + 1 =>
    if isBlank (lines.getD i []) then validateBodyAux lines (i + 1) n
    else if 72 < (lines.getD i []).length then .error (.bodyLineTooLong (i + 1))
    else validateBodyAux lines (i + 1) n

/-- `validate_body(lines, header_idx, first_footer_idx)`: every non-blank
line strictly between header and first footer must be at most 72 characters. -/
def validateBody (lines : List Line) (headerIdx ffi : Nat) : Except Reason Unit :=
  validateBodyAux lines (headerIdx + 1) (ffi - (headerIdx + 1))

/-- The word `IGNORE`. -/
def ignoreWordChars : List Char := ['I', 'G', 'N', 'O', 'R', 'E']

/-- A match of `-+\s+IGNORE\s*-+` starting exactly here.  The character
classes of adjacent pieces are disjoint, so greedy scanning needs no
backtracking.  The `\s*` that leads `IGNORE_MARKER_RE` is dropped: under
`re.search`, a pattern with an optional leading piece matches somewhere
iff the pattern without it does. -/
def ignoreAtHead (s : List Char) : Bool :=
  match s with
  | c :: _ =>
    if c = '-' then
      match s.dropWhile (fun d => d = '-') with
      | c2 :: _ =>
        if isPySpace c2 then
          match dropLead ignoreWordChars
              ((s.dropWhile (fun d => d = '-')).dropWhile isPySpace) with
          | some r3 =>
            match r3.dropWhile isPySpace with
            | c4 :: _ => c4 = '-'
            | [] => false
          | none => false
        else false
      | [] => false
    else false
  | [] => false

/-- Does `p` hold of some suffix of `s`?  (The position quantifier of
`re.search`.) -/
def existsSuffixB (p : List Char → Bool) : List Char → Bool
  | [] => p []
  | c :: rest => p (c :: rest) || existsSuffixB p rest

/-- `IGNORE_MARKER_RE.search(text)`. -/
def containsIgnoreMarker (text : List Char) : Bool :=
  existsSuffixB ignoreAtHead text

/-- The four literal line-start markers of `DIFF_RE`. -/
def diffHeads : List (List Char) :=
  ["diff --git ".toList, "+++ ".toList, "--- ".toList, "@@ ".toList]

/-- `DIFF_RE.search(text)` with `re.MULTILINE`: some line of the text starts
with one of the diff markers (`^` matches at the start of the text and after
every newline, and the markers contain no newline). -/
def diffSearch (text : List Char) : Bool :=
  (splitLines text).any (fun l => diffHeads.any (fun p => leadsWith p l))

/-- `ensure_no_diff_or_ignore_markers("\n".join(lines))`. -/
def ensureNoDiffOrIgnoreMarkers (text : List Char) : Except Reason Unit :=
  if containsIgnoreMarker text then .error .forbiddenIgnoreMarker
  else if diffSearch text then .error .forbiddenDiffContent
  else .ok ()

/-- The `"BREAKING CHANGE: "` string tested with `str.startswith` in
`ensure_breaking_footer_if_needed`. -/
def breakingMark : List Char := breakingColon ++ [' ']

/-- `ensure_breaking_footer_if_needed(bang, footers)`. -/
def ensureBreakingFooterIfNeeded (bang : List Char) (footers : List Line) :
    Except Reason Unit :=
  if bang = [] then .ok ()
  else if footers.any (fun f => leadsWith breakingMark f) then .ok ()
  else .error .missingBreakingFooter

/-- `ParsedMessage`. -/
structure ParsedMessage where
  lines : List Line
  header : Line
  headerIdx : Nat
  footers : List Line
  firstFooterIdx : Nat

/-- `parse_message(msg_path)`: normalize (with its file-operation trace),
find the header, collect the footers. -/
def parseMessage (raw : List Char) : List FileOp × Except Reason ParsedMessage :=
  let ops := (normalizeMessage raw).fst
  let lines := (normalizeMessage raw).snd
  match findHeader lines with
  | none => (ops, .error .emptyMessage)
  | some (header, headerIdx) =>
    (ops, .ok ⟨lines, header, headerIdx, (collectFooters lines headerIdx).fst,
      (collectFooters lines headerIdx).snd⟩)

/-- The rule pipeline of `validate_commit_message` after the bypass check:
forbidden content, header, breaking footer, body length, first failure wins. -/
def runChecks (lines : List Line) (header : Line) (headerIdx : Nat)
    (footers : List Line) (ffi : Nat) : Except Reason Unit :=
  match ensureNoDiffOrIgnoreMarkers (joinLines lines) with
  | .error e => .error e
  | .ok _ =>
    match validateHeader header with
    | .error e => .error e
    | .ok (_, _, bang, _) =>
      match ensureBreakingFooterIfNeeded bang footers with
      | .error e => .error e
      | .ok _ => validateBody lines headerIdx ffi

/-- `validate_commit_message(msg_path)`: parse (normalizing the file as a
side effect), short-circuit on the auto-bypass header prefixes, otherwise
run the rule pipeline.  The first component is the file-operation trace of
the run, the second its outcome. -/
def validateCommitMessage (raw : List Char) : List FileOp × Except Reason Unit :=
  match (parseMessage raw).snd with
  | .error e => ((parseMessage raw).fst, .error e)
  | .ok p =>
    if startsWithAnyBypass p.header then ((parseMessage raw).fst, .ok ())
    else ((parseMessage raw).fst,
      runChecks p.lines p.header p.headerIdx p.footers p.firstFooterIdx)

/-- The process exit status of `main` on an existing, readable message file:
`0` when validation passes (including bypass), `1` on a `ValidationError`. -/
def exitCode (raw : List Char) : Nat :=
  match (validateCommitMessage raw).snd with
  | .ok _ => 0
  | .error _ => 1

/-- The index (in Python, the first non-blank position or the length of
the list when every line is blank) that the scan converges to when nothing
breaks it. -/
def firstNonBlankIdx : List Line → Nat
  | [] => 0
  | l :: rest => if isBlank l then firstNonBlankIdx rest + 1 else 0

/-- A header of the form `type(scope)!: subject`, with the scope part
present iff `scope` is non-empty and the bang present iff `bang` is true
(this is the header shape described by the specification, built literally). -/
def mkHeader (ty scope : List Char) (bang : Bool) (subject : List Char) :
    Line :=
  ty ++ (if scope = [] then [] else '(' :: (scope ++ [')'])) ++
    (if bang then ['!'] else []) ++ ':' :: ' ' :: subject

/-! ## Lemmas about the normalizer -/

theorem joinLines_cons_cons (l l2 : Line) (L : List Line) :
    joinLines (l :: l2 :: L) = l ++ '\n' :: joinLines (l2 :: L) := rfl

theorem splitLines_ne_nil (s : List Char) : splitLines s ≠ [] := by
  induction s with
  | nil => simp [splitLines]
  | cons c rest ih =>
    rw [splitLines]
    by_cases h : c = '\n'
    · simp [h]
    · rw [if_neg h]
      cases hs : splitLines rest with
      | nil => exact absurd hs ih
      | cons l ls => simp

theorem no_newline_of_mem_splitLines {s : List Char} {l : Line}
    (hl : l ∈ splitLines s) : '\n' ∉ l := by
  induction s generalizing l with
  | nil =>
    simp [splitLines] at hl
    subst hl; simp
  | cons c rest ih =>
    rw [splitLines] at hl
    by_cases h : c = '\n'
    · rw [if_pos h] at hl
      rcases List.mem_cons.mp hl with rfl | hmem
      · simp
      · exact ih hmem
    · rw [if_neg h] at hl
      cases hs : splitLines rest with
      | nil => exact absurd hs (splitLines_ne_nil rest)
      | cons l0 ls =>
        rw [hs] at hl
        rcases List.mem_cons.mp hl with rfl | hmem
        · intro hcmem
          rcases List.mem_cons.mp hcmem with h1 | h2
          · exact h h1.symm
          · exact ih (hs ▸ List.mem_cons_self l0 ls) h2
        · exact ih (hs ▸ List.mem_cons_of_mem l0 hmem)

theorem mem_of_mem_splitLines {s : List Char} {l : Line} {c : Char}
    (hl : l ∈ splitLines s) (hc : c ∈ l) : c ∈ s := by
  induction s generalizing l with
  | nil =>
    simp [splitLines] at hl
    subst hl; simp at hc
  | cons a rest ih =>
    rw [splitLines] at hl
    by_cases h : a = '\n'
    · rw [if_pos h] at hl
      rcases List.mem_cons.mp hl with rfl | hmem
      · simp at hc
      · exact List.mem_cons_of_mem a (ih hmem hc)
    · rw [if_neg h] at hl
      cases hs : splitLines rest with
      | nil => exact absurd hs (splitLines_ne_nil rest)
      | cons l0 ls =>
        rw [hs] at hl
        rcases List.mem_cons.mp hl with rfl | hmem
        · rcases List.mem_cons.mp hc with rfl | h2
          · exact List.mem_cons_self _ _
          · exact List.mem_cons_of_mem a (ih (hs ▸ List.mem_cons_self l0 ls) h2)
        · exact List.mem_cons_of_mem a (ih (hs ▸ List.mem_cons_of_mem l0 hmem) hc)

theorem splitLines_of_no_newline {l : List Char} (h : '\n' ∉ l) :
    splitLines l = [l] := by
  induction l with
  | nil => rfl
  | cons c rest ih =>
    have hc : ¬(c = '\n') := fun he => h (he ▸ List.mem_cons_self c rest)
    rw [splitLines, if_neg hc, ih (fun hm => h (List.mem_cons_of_mem c hm))]

theorem splitLines_append_newline {l t : List Char} (h : '\n' ∉ l) :
    splitLines (l ++ '\n' :: t) = l :: splitLines t := by
  induction l with
  | nil => simp [splitLines]
  | cons c rest ih =>
    have hc : ¬(c = '\n') := fun he => h (he ▸ List.mem_cons_self c rest)
    rw [List.cons_append, splitLines, if_neg hc,
      ih (fun hm => h (List.mem_cons_of_mem c hm))]

theorem splitLines_joinLines {L : List Line} (hne : L ≠ [])
    (h : ∀ l ∈ L, '\n' ∉ l) : splitLines (joinLines L) = L := by
  induction L with
  | nil => exact absurd rfl hne
  | cons l L' ih =>
    cases L' with
    | nil => exact splitLines_of_no_newline (h l (List.mem_cons_self l []))
    | cons l2 L'' =>
      rw [joinLines_cons_cons,
        splitLines_append_newline (h l (List.mem_cons_self l (l2 :: L''))),
        ih (by simp) (fun x hx => h x (List.mem_cons_of_mem l hx))]

theorem splitLines_concat_newline (s : List Char) :
    splitLines (s ++ ['\n']) = splitLines s ++ [[]] := by
  induction s with
  | nil => rfl
  | cons c rest ih =>
    by_cases h : c = '\n'
    · rw [List.cons_append, splitLines, if_pos h, ih, splitLines, if_pos h]
      rfl
    · rw [List.cons_append, splitLines, if_neg h, ih, splitLines, if_neg h]
      cases hs : splitLines rest with
      | nil => exact absurd hs (splitLines_ne_nil rest)
      | cons l0 ls => rfl

theorem joinLines_concat_nil :
    ∀ {L : List Line}, L ≠ [] → joinLines (L ++ [[]]) = joinLines L ++ ['\n']
  | [], h => absurd rfl h
  | [_], _ => rfl
  | l :: l2 :: L'', _ => by
    have ih := joinLines_concat_nil (L := l2 :: L'') (by simp)
    simp only [List.cons_append] at ih ⊢
    rw [joinLines_cons_cons, ih, joinLines_cons_cons]
    simp

theorem mem_joinLines {L : List Line} {c : Char} (h : c ∈ joinLines L) :
    c = '\n' ∨ ∃ l ∈ L, c ∈ l := by
  induction L with
  | nil => simp [joinLines] at h
  | cons l L' ih =>
    cases L' with
    | nil =>
      right
      exact ⟨l, List.mem_cons_self l [], h⟩
    | cons l2 L'' =>
      rw [joinLines_cons_cons] at h
      rcases List.mem_append.mp h with h1 | h2
      · exact Or.inr ⟨l, List.mem_cons_self _ _, h1⟩
      · rcases List.mem_cons.mp h2 with rfl | h3
        · exact Or.inl rfl
        · rcases ih h3 with h4 | ⟨x, hx, hcx⟩
          · exact Or.inl h4
          · exact Or.inr ⟨x, List.mem_cons_of_mem l hx, hcx⟩

theorem replaceCR_no_cr (s : List Char) : '\r' ∉ replaceCR s := by
  induction s with
  | nil => simp [replaceCR]
  | cons c rest ih =>
    rw [replaceCR]
    intro hmem
    rcases List.mem_cons.mp hmem with h1 | h2
    · by_cases h : c = '\r'
      · rw [if_pos h] at h1
        exact absurd h1 (by decide)
      · rw [if_neg h] at h1
        exact h h1.symm
    · exact ih h2

theorem replaceCRLF_of_no_cr : ∀ {s : List Char}, '\r' ∉ s → replaceCRLF s = s
  | [], _ => rfl
  | [_], _ => rfl
  | c :: d :: rest, h => by
    have hc : ¬(c = '\r') := fun he => h (he ▸ List.mem_cons_self c (d :: rest))
    rw [replaceCRLF, if_neg (fun hp => hc hp.1),
      replaceCRLF_of_no_cr (fun hm => h (List.mem_cons_of_mem c hm))]

theorem replaceCR_of_no_cr {s : List Char} (h : '\r' ∉ s) : replaceCR s = s := by
  induction s with
  | nil => rfl
  | cons c rest ih =>
    have hc : ¬(c = '\r') := fun he => h (he ▸ List.mem_cons_self c rest)
    rw [replaceCR, if_neg hc, ih (fun hm => h (List.mem_cons_of_mem c hm))]

theorem endsWithNL_iff {s : List Char} :
    endsWithNL s = true ↔ s.getLast? = some '\n' := by
  unfold endsWithNL
  exact beq_iff_eq

/-- The lines kept by the normalizer contain no newline and no carriage
return, and they all pass the keep-filter. -/
theorem normalizeLines_facts (raw : List Char) :
    ∀ l ∈ normalizeLines raw, keepLine l = true ∧ '\n' ∉ l ∧ '\r' ∉ l := by
  intro l hl
  unfold normalizeLines at hl
  refine ⟨List.of_mem_filter hl, ?_, ?_⟩
  · exact no_newline_of_mem_splitLines (List.mem_of_mem_filter hl)
  · intro hc
    exact replaceCR_no_cr (replaceCRLF raw)
      (mem_of_mem_splitLines (List.mem_of_mem_filter hl) hc)

/-- Case analysis of the written-back file content: the kept lines joined,
with a newline appended exactly when the join does not already end in one. -/
theorem writtenContent_cases (raw : List Char) :
    (normalizeLines raw = [] ∧ writtenContent raw = ['\n'] ∧
      splitLines (writtenContent raw) = [[], []]) ∨
    (normalizeLines raw ≠ [] ∧
      endsWithNL (joinLines (normalizeLines raw)) = true ∧
      writtenContent raw = joinLines (normalizeLines raw) ∧
      splitLines (writtenContent raw) = normalizeLines raw) ∨
    (normalizeLines raw ≠ [] ∧
      writtenContent raw = joinLines (normalizeLines raw) ++ ['\n'] ∧
      splitLines (writtenContent raw) = normalizeLines raw ++ [[]]) := by
  by_cases hL : normalizeLines raw = []
  · left
    have hw : writtenContent raw = ['\n'] := by
      unfold writtenContent
      rw [hL]
      rfl
    exact ⟨hL, hw, by rw [hw]; rfl⟩
  · by_cases hnl : endsWithNL (joinLines (normalizeLines raw)) = true
    · right; left
      have hw : writtenContent raw = joinLines (normalizeLines raw) := by
        unfold writtenContent ensureNL
        rw [if_pos hnl]
      refine ⟨hL, hnl, hw, ?_⟩
      rw [hw]
      exact splitLines_joinLines hL
        (fun l hl => ((normalizeLines_facts raw) l hl).2.1)
    · right; right
      have hw : writtenContent raw = joinLines (normalizeLines raw) ++ ['\n'] := by
        unfold writtenContent ensureNL
        rw [if_neg hnl]
      refine ⟨hL, hw, ?_⟩
      rw [hw, splitLines_concat_newline,
        splitLines_joinLines hL
          (fun l hl => ((normalizeLines_facts raw) l hl).2.1)]

/-! ## Lemmas about scanning -/

theorem takeWhile_append_of_all {p : Char → Bool} {xs ys : List Char}
    (h : ∀ x ∈ xs, p x = true) :
    (xs ++ ys).takeWhile p = xs ++ ys.takeWhile p := by
  induction xs with
  | nil => rfl
  | cons x xs ih =>
    rw [List.cons_append,
      List.takeWhile_cons_of_pos (h x (List.mem_cons_self x xs)),
      ih (fun a ha => h a (List.mem_cons_of_mem x ha)), List.cons_append]

theorem dropWhile_append_of_all {p : Char → Bool} {xs ys : List Char}
    (h : ∀ x ∈ xs, p x = true) :
    (xs ++ ys).dropWhile p = ys.dropWhile p := by
  induction xs with
  | nil => rfl
  | cons x xs ih =>
    rw [List.cons_append,
      List.dropWhile_cons_of_pos (h x (List.mem_cons_self x xs)),
      ih (fun a ha => h a (List.mem_cons_of_mem x ha))]

theorem dropLead_self_append (p rest : List Char) :
    dropLead p (p ++ rest) = some rest := by
  induction p with
  | nil => rfl
  | cons c p ih => rw [List.cons_append, dropLead, if_pos rfl, ih]

theorem leadsWith_iff_append {p s : List Char} :
    leadsWith p s = true ↔ ∃ rest, s = p ++ rest := by
  constructor
  · intro h
    induction p generalizing s with
    | nil => exact ⟨s, rfl⟩
    | cons c p ih =>
      cases s with
      | nil => simp [leadsWith] at h
      | cons a s' =>
        rw [leadsWith, Bool.and_eq_true] at h
        obtain ⟨rest, hrest⟩ := ih h.2
        refine ⟨rest, ?_⟩
        rw [List.cons_append, ← hrest]
        have : c = a := by simpa using h.1
        rw [this]
  · rintro ⟨rest, rfl⟩
    induction p with
    | nil => rfl
    | cons c p ih =>
      rw [List.cons_append, leadsWith]
      simp [ih]

/-! ### The backward footer scan -/

/-- A non-blank, non-matching line breaks the backward scan: everything
above it (which the scan would visit later) is irrelevant. -/
theorem ffiAux_append_stop {stop : Line} (hb : isBlank stop = false)
    (hf : footerMatches stop = false) :
    ∀ (xs ys : List Line) (i acc : Nat),
      ffiAux (xs ++ stop :: ys) i acc = ffiAux xs i acc := by
  intro xs
  induction xs with
  | nil =>
    intro ys i acc
    simp [ffiAux, hb, hf]
  | cons l rest ih =>
    intro ys i acc
    simp only [List.cons_append, ffiAux, List.append_eq]
    by_cases h1 : isBlank l = true
    · rw [if_pos h1, if_pos h1, ih]
    · rw [if_neg h1, if_neg h1]
      by_cases h2 : footerMatches l = true
      · rw [if_pos h2, if_pos h2, ih]
      · rw [if_neg h2, if_neg h2]

/-- Index shift for the backward scan: starting the same scan `d` positions
further right shifts the result by `d` (valid as long as the index does not
underflow, i.e. the list fits under `i + 1`). -/
theorem ffiAux_shift (d : Nat) :
    ∀ (xs : List Line) (i acc : Nat), xs.length ≤ i + 1 →
      ffiAux xs (i + d) (acc + d) = ffiAux xs i acc + d := by
  intro xs
  induction xs with
  | nil => intro i acc _; rfl
  | cons l rest ih =>
    intro i acc hlen
    cases rest with
    | nil =>
      simp only [ffiAux]
      by_cases hb : isBlank l = true
      · rw [if_pos hb, if_pos hb]
      · rw [if_neg hb, if_neg hb]
        by_cases hf : footerMatches l = true
        · rw [if_pos hf, if_pos hf]
        · rw [if_neg hf, if_neg hf]
    | cons l2 rest2 =>
      have hi : 1 ≤ i := by
        simp only [List.length_cons] at hlen
        omega
      have hsub : i + d - 1 = (i - 1) + d := by omega
      have hlen2 : (l2 :: rest2).length ≤ (i - 1) + 1 := by
        simp only [List.length_cons] at hlen ⊢
        omega
      show (if isBlank l = true then ffiAux (l2 :: rest2) (i + d - 1) (acc + d)
        else if footerMatches l = true then
          ffiAux (l2 :: rest2) (i + d - 1) (i + d)
        else acc + d) =
        (if isBlank l = true then ffiAux (l2 :: rest2) (i - 1) acc
        else if footerMatches l = true then ffiAux (l2 :: rest2) (i - 1) i
        else acc) + d
      by_cases hb : isBlank l = true
      · rw [if_pos hb, if_pos hb, hsub]
        exact ih (i - 1) acc hlen2
      · rw [if_neg hb, if_neg hb]
        by_cases hf : footerMatches l = true
        · rw [if_pos hf, if_pos hf, hsub]
          exact ih (i - 1) i hlen2
        · rw [if_neg hf, if_neg hf]

/-- When a scanned block contains only blank or matching lines, the scan
passes through it completely. -/
theorem ffiAux_append_nobreak :
    ∀ (xs ys : List Line) (i acc : Nat),
      (∀ l ∈ xs, isBlank l = true ∨ footerMatches l = true) →
      ffiAux (xs ++ ys) i acc = ffiAux ys (i - xs.length) (ffiAux xs i acc) := by
  intro xs
  induction xs with
  | nil =>
    intro ys i acc _
    simp [ffiAux]
  | cons l rest ih =>
    intro ys i acc hall
    simp only [List.cons_append, ffiAux, List.append_eq]
    have hrest : ∀ x ∈ rest, isBlank x = true ∨ footerMatches x = true :=
      fun x hx => hall x (List.mem_cons_of_mem l hx)
    by_cases hb : isBlank l = true
    · rw [if_pos hb, if_pos hb, ih ys (i - 1) acc hrest,
        List.length_cons, Nat.sub_sub, Nat.add_comm rest.length 1]
    · rw [if_neg hb, if_neg hb]
      rcases hall l (List.mem_cons_self l rest) with h1 | h2
      · exact absurd h1 hb
      · rw [if_pos h2, if_pos h2, ih ys (i - 1) i hrest,
        List.length_cons, Nat.sub_sub, Nat.add_comm rest.length 1]

theorem firstFooterIdx_of_stop {stop : Line} (hb : isBlank stop = false)
    (hf : footerMatches stop = false) (pre suf : List Line) :
    firstFooterIdx (pre ++ stop :: suf) = pre.length + 1 + firstFooterIdx suf := by
  unfold firstFooterIdx
  rw [show (pre ++ stop :: suf).reverse = suf.reverse ++ stop :: pre.reverse by
    simp, ffiAux_append_stop hb hf]
  cases suf with
  | nil =>
    simp [ffiAux]
  | cons s0 suf' =>
    have h1 : (pre ++ stop :: s0 :: suf').length - 1 =
        ((s0 :: suf').length - 1) + (pre.length + 1) := by
      simp
      omega
    have h2 : (pre ++ stop :: s0 :: suf').length =
        (s0 :: suf').length + (pre.length + 1) := by
      simp
      omega
    rw [h1, h2, ffiAux_shift (pre.length + 1) (s0 :: suf').reverse
      ((s0 :: suf').length - 1) (s0 :: suf').length
      (by simp)]
    omega

theorem firstFooterIdx_of_all_match :
    ∀ (lines : List Line),
      (∀ l ∈ lines, isBlank l = true ∨ footerMatches l = true) →
      firstFooterIdx lines = firstNonBlankIdx lines := by
  intro lines
  induction lines with
  | nil => intro _; rfl
  | cons l rest ih =>
    intro hall
    have hrest : ∀ x ∈ rest, isBlank x = true ∨ footerMatches x = true :=
      fun x hx => hall x (List.mem_cons_of_mem l hx)
    have hrev : ∀ x ∈ rest.reverse, isBlank x = true ∨ footerMatches x = true :=
      fun x hx => hrest x (List.mem_reverse.mp hx)
    unfold firstFooterIdx
    rw [List.reverse_cons, List.length_cons,
      ffiAux_append_nobreak rest.reverse [l] (rest.length + 1 - 1)
        (rest.length + 1) hrev, List.length_reverse]
    have hA : ffiAux rest.reverse (rest.length + 1 - 1) (rest.length + 1) =
        firstNonBlankIdx rest + 1 := by
      cases rest with
      | nil => rfl
      | cons r0 rest' =>
        have hs1 : (r0 :: rest').length + 1 - 1 =
            ((r0 :: rest').length - 1) + 1 := by simp
        have hs2 : (r0 :: rest').length + 1 =
            (r0 :: rest').length + 1 := rfl
        rw [hs1, ffiAux_shift 1 (r0 :: rest').reverse
          ((r0 :: rest').length - 1) (r0 :: rest').length (by simp)]
        have := ih hrest
        unfold firstFooterIdx at this
        rw [this]
    rw [hA]
    have hidx : rest.length + 1 - 1 - rest.length = 0 := by omega
    rw [hidx]
    by_cases hb : isBlank l = true
    · rw [show ffiAux [l] 0 (firstNonBlankIdx rest + 1) =
          firstNonBlankIdx rest + 1 by simp [ffiAux, hb],
        firstNonBlankIdx, if_pos hb]
    · rcases hall l (List.mem_cons_self l rest) with h1 | h2
      · exact absurd h1 hb
      · rw [show ffiAux [l] 0 (firstNonBlankIdx rest + 1) = 0 by
            simp [ffiAux, hb, h2],
          firstNonBlankIdx, if_neg hb]

/-! ## Pipeline unfolding -/

theorem validateCommitMessage_snd_of_header (raw : List Char) (h : Line)
    (i : Nat) (hfind : findHeader (normalizeLines raw) = some (h, i)) :
    (validateCommitMessage raw).snd =
      if startsWithAnyBypass h then .ok ()
      else runChecks (normalizeLines raw) h i (footersOf (normalizeLines raw))
        (firstFooterIdx (normalizeLines raw)) := by
  simp only [validateCommitMessage, parseMessage, normalizeMessage,
    collectFooters, hfind]
  by_cases hb : startsWithAnyBypass h <;> simp [hb]

theorem validateCommitMessage_fst (raw : List Char) :
    (validateCommitMessage raw).fst =
      [FileOp.readF, FileOp.writeF (writtenContent raw)] := by
  cases hf : findHeader (normalizeLines raw) with
  | none =>
    simp only [validateCommitMessage, parseMessage, normalizeMessage,
      collectFooters, hf]
  | some p =>
    obtain ⟨h, i⟩ := p
    by_cases hb : startsWithAnyBypass h <;>
      simp only [validateCommitMessage, parseMessage, normalizeMessage,
        collectFooters, hf, hb] <;> simp [hb]

/-! ## Claim theorems -/

/-- Claim C6: for every readable message file, the run's file-operation
trace is exactly one read followed by one write of the normalized content
(CRLF collapsed, comment and template lines removed, newline-terminated) —
the write is emitted by the normalizer before any validation rule runs, it
is the same whatever the validation outcome is, and no further file
operation follows it. -/
theorem rewrite_trace_single_write (raw : List Char) :
    (validateCommitMessage raw).fst =
      [FileOp.readF, FileOp.writeF (writtenContent raw)] :=
  validateCommitMessage_fst raw

/-- Claim C4, counterexample: on the input `"a\n\n"` the normalizer writes
back `"a\n\n"` unchanged, whose last two characters are both newlines — the
written content does not end with *exactly one* trailing newline. -/
theorem written_two_trailing_newlines :
    writtenContent ('a' :: '\n' :: '\n' :: []) = 'a' :: '\n' :: '\n' :: [] ∧
    ('a' :: '\n' :: '\n' :: []).getLast? = some '\n' ∧
    ('a' :: '\n' :: '\n' :: []).dropLast.getLast? = some '\n' := by
  decide

/-- Claim C4 (amended): the content written back by the normalizer always
ends with at least one trailing newline (a single newline is appended only
when the joined lines do not already end in one, so earlier trailing blank
lines can leave more than one), and the written file represents the
in-memory line sequence of `normalize_message`: its lines are exactly the
in-memory lines, possibly followed by one empty segment for the appended
terminator (with the empty in-memory sequence stored as a lone newline). -/
theorem written_newline_terminated (raw : List Char) :
    (writtenContent raw).getLast? = some '\n' ∧
    (splitLines (writtenContent raw) = normalizeLines raw ++ [[]] ∨
     splitLines (writtenContent raw) = normalizeLines raw ∨
     (normalizeLines raw = [] ∧ splitLines (writtenContent raw) = [[], []])) := by
  rcases writtenContent_cases raw with ⟨hL, hw, hs⟩ | ⟨_, hnl, hw, hs⟩ |
    ⟨hL, hw, hs⟩
  · exact ⟨by rw [hw]; rfl, Or.inr (Or.inr ⟨hL, hs⟩)⟩
  · exact ⟨by rw [hw]; exact endsWithNL_iff.mp hnl, Or.inr (Or.inl hs)⟩
  · exact ⟨by rw [hw]; exact List.getLast?_concat _, Or.inl hs⟩

/-- Claim C8: the normalizer is idempotent at the file level — running it
again on the content it wrote leaves the on-disk content unchanged, and the
second run strips no further lines (every line of the written content
passes the comment/template filter, and the CR replacements do nothing). -/
theorem normalizer_idempotent (raw : List Char) :
    writtenContent (writtenContent raw) = writtenContent raw ∧
    normalizeLines (writtenContent raw) = splitLines (writtenContent raw) := by
  have hnoCR : '\r' ∉ writtenContent raw := by
    rcases writtenContent_cases raw with ⟨_, hw, _⟩ | ⟨_, _, hw, _⟩ |
      ⟨_, hw, _⟩
    · rw [hw]; decide
    · rw [hw]
      intro hmem
      rcases mem_joinLines hmem with h1 | ⟨l, hl, hcl⟩
      · exact absurd h1 (by decide)
      · exact ((normalizeLines_facts raw) l hl).2.2 hcl
    · rw [hw]
      intro hmem
      rcases List.mem_append.mp hmem with h1 | h2
      · rcases mem_joinLines h1 with h3 | ⟨l, hl, hcl⟩
        · exact absurd h3 (by decide)
        · exact ((normalizeLines_facts raw) l hl).2.2 hcl
      · simp at h2
  have hkeep : ∀ l ∈ splitLines (writtenContent raw), keepLine l = true := by
    intro l hl
    rcases writtenContent_cases raw with ⟨_, _, hs⟩ | ⟨_, _, _, hs⟩ |
      ⟨_, _, hs⟩
    · rw [hs] at hl
      rcases List.mem_cons.mp hl with rfl | hl2
      · decide
      · simp at hl2; subst hl2; decide
    · rw [hs] at hl
      exact ((normalizeLines_facts raw) l hl).1
    · rw [hs] at hl
      rcases List.mem_append.mp hl with h1 | h2
      · exact ((normalizeLines_facts raw) l h1).1
      · simp at h2; subst h2; decide
  have h2 : normalizeLines (writtenContent raw) =
      splitLines (writtenContent raw) := by
    unfold normalizeLines
    rw [replaceCRLF_of_no_cr hnoCR, replaceCR_of_no_cr hnoCR]
    exact List.filter_eq_self.mpr hkeep
  refine ⟨?_, h2⟩
  show ensureNL (joinLines (normalizeLines (writtenContent raw))) =
    writtenContent raw
  rw [h2]
  rcases writtenContent_cases raw with ⟨_, hw, hs⟩ | ⟨_, hnl, hw, hs⟩ |
    ⟨hL, hw, hs⟩
  · rw [hs, hw]; rfl
  · rw [hs]
    unfold ensureNL
    rw [if_pos hnl, hw]
  · rw [hs, joinLines_concat_nil hL]
    unfold ensureNL
    rw [if_pos (endsWithNL_iff.mpr (List.getLast?_concat _)), hw]

/-- Claim C10: the separate subject-exclamation failure of `validate_header`
is dead code — for every header string, the validator never returns that
reason, because the character-set check (whose allowed set excludes the
exclamation mark) runs first and already rejects every subject containing
one. -/
theorem subject_bang_reason_unreachable (header : Line) :
    validateHeader header ≠ Except.error Reason.subjectBang := by
  intro hcontra
  unfold validateHeader at hcontra
  split at hcontra
  · simp at hcontra
  · split at hcontra
    · simp at hcontra
    · split at hcontra
      · simp at hcontra
      · split at hcontra
        · simp at hcontra
        · split at hcontra
          · simp at hcontra
          · split at hcontra
            · simp at hcontra
            · split at hcontra
              · simp at hcontra
              · split at hcontra
                · rename_i subject h6 h7
                  have hall := not_not.mp h6
                  rw [List.all_eq_true] at hall
                  exact absurd (hall '!' h7) (by decide)
                · simp at hcontra

/-- Claim C1: whenever the first non-blank line of the normalized message
starts with one of the auto-bypass heads (`Merge `, `Revert `, `fixup! `,
`squash! `), validation succeeds and the run exits 0, whatever the rest of
the message contains. -/
theorem bypass_header_validates_ok (raw : List Char) (h : Line) (i : Nat)
    (hfind : findHeader (normalizeLines raw) = some (h, i))
    (hbyp : startsWithAnyBypass h = true) :
    (validateCommitMessage raw).snd = .ok () ∧ exitCode raw = 0 := by
  have hsnd := validateCommitMessage_snd_of_header raw h i hfind
  rw [if_pos hbyp] at hsnd
  refine ⟨hsnd, ?_⟩
  unfold exitCode
  rw [hsnd]

/-- Witness for C1: a merge message carrying raw diff content (which would
fail the forbidden-content rule) still validates and exits 0. -/
theorem bypass_header_validates_ok_witness :
    (validateCommitMessage "Merge x\ndiff --git a b\n".toList).snd = .ok () ∧
      exitCode "Merge x\ndiff --git a b\n".toList = 0 :=
  bypass_header_validates_ok "Merge x\ndiff --git a b\n".toList
    "Merge x".toList 0 (by decide) (by decide)

/-- Claim C5, counterexample: the line `A1: b` consists of a token of
letters and digits followed by colon-space and a value, yet `FOOTER_RE`
does not match it (its token class `[A-Za-z-]` has no digits), and the
backward scan therefore stops at it instead of tentatively including it
(the first footer index of the one-line list stays at the list length). -/
theorem digit_token_line_not_footer :
    footerMatches ('A' :: '1' :: ':' :: ' ' :: 'b' :: []) = false ∧
    firstFooterIdx [['A', '1', ':', ' ', 'b']] = 1 := by
  decide

/-- Claim C5 (amended): a line of the form `token: value` matches the
trailer grammar when the token is `BREAKING CHANGE` or a non-empty word of
letters and *hyphens* (not digits: the token class of `FOOTER_RE` is
`[A-Za-z-]`), and such a line is tentatively included by the backward scan,
which continues upward; the first non-blank, non-matching line stops the
scan, making everything above it irrelevant; and when nothing stops it, the
scan runs to the first non-blank line of the message. -/
theorem footer_grammar_scan :
    (∀ token value : List Char,
      (token = breakingWord ∨ (token ≠ [] ∧ token.all isFooterTokenChar = true)) →
      footerMatches (token ++ ':' :: ' ' :: value) = true) ∧
    (∀ (pre suf : List Line) (stop : Line),
      isBlank stop = false → footerMatches stop = false →
      firstFooterIdx (pre ++ stop :: suf) = pre.length + 1 + firstFooterIdx suf) ∧
    (∀ lines : List Line,
      (∀ l ∈ lines, isBlank l = true ∨ footerMatches l = true) →
      firstFooterIdx lines = firstNonBlankIdx lines) := by
  refine ⟨?_, fun pre suf stop hb hf => firstFooterIdx_of_stop hb hf pre suf,
    firstFooterIdx_of_all_match⟩
  intro token value htok
  rcases htok with rfl | ⟨hne, hall⟩
  · unfold footerMatches
    rw [show breakingWord ++ ':' :: ' ' :: value =
          breakingColon ++ ' ' :: value by
        unfold breakingColon
        rw [List.append_assoc]
        rfl,
      dropLead_self_append]
    rfl
  · have hall' : ∀ x ∈ token, isFooterTokenChar x = true :=
      List.all_eq_true.mp hall
    have h2 : (token ++ ':' :: ' ' :: value).takeWhile isFooterTokenChar =
        token := by
      rw [takeWhile_append_of_all hall',
        List.takeWhile_cons_of_neg (by decide), List.append_nil]
    have h3 : (token ++ ':' :: ' ' :: value).dropWhile isFooterTokenChar =
        ':' :: ' ' :: value := by
      rw [dropWhile_append_of_all hall',
        List.dropWhile_cons_of_neg (by decide)]
    unfold footerMatches
    rw [h2, h3, if_neg hne]
    simp [isPySpace]

/-- Witness for C5: a hyphenated letter token is accepted by the trailer
grammar. -/
theorem footer_grammar_scan_witness :
    footerMatches ("Signed-off-by".toList ++ ':' :: ' ' :: "x".toList) = true :=
  footer_grammar_scan.1 "Signed-off-by".toList "x".toList
    (Or.inr ⟨by decide, by decide⟩)

/-! ## The body window scan -/

theorem validateBodyAux_ok (lines : List Line) :
    ∀ (n i : Nat),
      (∀ k, i ≤ k → k < i + n →
        isBlank (lines.getD k []) = true ∨ (lines.getD k []).length ≤ 72) →
      validateBodyAux lines i n = .ok () := by
  intro n
  induction n with
  | zero => intro i _; rfl
  | succ n ih =>
    intro i hall
    have hnext : ∀ k, i + 1 ≤ k → k < (i + 1) + n →
        isBlank (lines.getD k []) = true ∨ (lines.getD k []).length ≤ 72 :=
      fun k h1 h2 => hall k (by omega) (by omega)
    simp only [validateBodyAux]
    rcases hall i (Nat.le_refl i) (by omega) with h1 | h2
    · rw [if_pos h1]
      exact ih (i + 1) hnext
    · by_cases hb : isBlank (lines.getD i []) = true
      · rw [if_pos hb]
        exact ih (i + 1) hnext
      · rw [if_neg hb, if_neg (by omega)]
        exact ih (i + 1) hnext

theorem validateBodyAux_error (lines : List Line) :
    ∀ (n i j : Nat), i ≤ j → j < i + n →
      isBlank (lines.getD j []) = false → 72 < (lines.getD j []).length →
      (∀ k, i ≤ k → k < j →
        isBlank (lines.getD k []) = true ∨ (lines.getD k []).length ≤ 72) →
      validateBodyAux lines i n = .error (.bodyLineTooLong (j + 1)) := by
  intro n
  induction n with
  | zero =>
    intro i j h1 h2 _ _ _
    omega
  | succ n ih =>
    intro i j h1 h2 hnb hlong hpre
    simp only [validateBodyAux]
    by_cases hij : i = j
    · subst hij
      rw [if_neg (by rw [hnb]; exact Bool.false_ne_true), if_pos hlong]
    · have hlt : i < j := by omega
      have htail : ∀ k, i + 1 ≤ k → k < j →
          isBlank (lines.getD k []) = true ∨ (lines.getD k []).length ≤ 72 :=
        fun k hk hkj => hpre k (by omega) hkj
      rcases hpre i (Nat.le_refl i) hlt with hk1 | hk2
      · rw [if_pos hk1]
        exact ih (i + 1) j (by omega) (by omega) hnb hlong htail
      · by_cases hb : isBlank (lines.getD i []) = true
        · rw [if_pos hb]
          exact ih (i + 1) j (by omega) (by omega) hnb hlong htail
        · rw [if_neg hb, if_neg (by omega)]
          exact ih (i + 1) j (by omega) (by omega) hnb hlong htail

/-! ## Claims about the rule pipeline -/

/-- Claim C3: for a non-bypassed message that passes the forbidden-content
check and whose header validates with the breaking flag set, missing a
footer line starting with `BREAKING CHANGE: ` fails validation with the
missing-breaking-footer reason, and the presence of such a footer line
satisfies this check. -/
theorem breaking_flag_requires_footer (raw : List Char) (h : Line) (i : Nat)
    (ty scope bang subj : List Char)
    (hfind : findHeader (normalizeLines raw) = some (h, i))
    (hbyp : startsWithAnyBypass h = false)
    (hforb : ensureNoDiffOrIgnoreMarkers (joinLines (normalizeLines raw)) =
      .ok ())
    (hvh : validateHeader h = .ok (ty, scope, bang, subj))
    (hbang : bang ≠ []) :
    ((footersOf (normalizeLines raw)).any
        (fun f => leadsWith breakingMark f) = false →
      (validateCommitMessage raw).snd = .error .missingBreakingFooter) ∧
    ((footersOf (normalizeLines raw)).any
        (fun f => leadsWith breakingMark f) = true →
      ensureBreakingFooterIfNeeded bang (footersOf (normalizeLines raw)) =
        .ok ()) := by
  have hsnd := validateCommitMessage_snd_of_header raw h i hfind
  rw [if_neg (by rw [hbyp]; exact Bool.false_ne_true)] at hsnd
  constructor
  · intro hno
    have hens : ensureBreakingFooterIfNeeded bang
        (footersOf (normalizeLines raw)) = .error .missingBreakingFooter := by
      unfold ensureBreakingFooterIfNeeded
      rw [if_neg hbang, if_neg (by rw [hno]; exact Bool.false_ne_true)]
    rw [hsnd]
    simp only [runChecks, hforb, hvh, hens]
  · intro hyes
    unfold ensureBreakingFooterIfNeeded
    rw [if_neg hbang, if_pos hyes]

/-- Witness for C3: `feat!: drop legacy api` with no footer fails with the
missing-breaking-footer reason. -/
theorem breaking_flag_requires_footer_witness :
    (validateCommitMessage "feat!: drop legacy api\n".toList).snd =
      .error .missingBreakingFooter :=
  (breaking_flag_requires_footer "feat!: drop legacy api\n".toList
    "feat!: drop legacy api".toList 0 "feat".toList [] ['!']
    "drop legacy api".toList (by decide) (by decide) (by decide) (by decide)
    (by decide)).1 (by decide)

/-- Claim C7: for a non-bypassed message that passes the forbidden-content,
header and breaking-footer checks, the first non-blank line strictly
between the header index and the first footer index whose length exceeds
72 characters fails validation with the body-line reason carrying its
1-based line number; when every such line is blank or at most 72
characters long, validation succeeds. -/
theorem body_line_length_rule (raw : List Char) (h : Line) (i : Nat)
    (ty scope bang subj : List Char)
    (hfind : findHeader (normalizeLines raw) = some (h, i))
    (hbyp : startsWithAnyBypass h = false)
    (hforb : ensureNoDiffOrIgnoreMarkers (joinLines (normalizeLines raw)) =
      .ok ())
    (hvh : validateHeader h = .ok (ty, scope, bang, subj))
    (hbrk : ensureBreakingFooterIfNeeded bang (footersOf (normalizeLines raw)) =
      .ok ()) :
    (∀ j, i < j → j < firstFooterIdx (normalizeLines raw) →
      isBlank ((normalizeLines raw).getD j []) = false →
      72 < ((normalizeLines raw).getD j []).length →
      (∀ k, i < k → k < j →
        isBlank ((normalizeLines raw).getD k []) = true ∨
          ((normalizeLines raw).getD k []).length ≤ 72) →
      (validateCommitMessage raw).snd = .error (.bodyLineTooLong (j + 1))) ∧
    ((∀ j, i < j → j < firstFooterIdx (normalizeLines raw) →
        isBlank ((normalizeLines raw).getD j []) = true ∨
          ((normalizeLines raw).getD j []).length ≤ 72) →
      (validateCommitMessage raw).snd = .ok ()) := by
  have hsnd := validateCommitMessage_snd_of_header raw h i hfind
  rw [if_neg (by rw [hbyp]; exact Bool.false_ne_true)] at hsnd
  have hrun : (validateCommitMessage raw).snd =
      validateBody (normalizeLines raw) i (firstFooterIdx (normalizeLines raw)) := by
    rw [hsnd]
    simp only [runChecks, hforb, hvh, hbrk]
  constructor
  · intro j hij hjf hnb hlong hpre
    rw [hrun]
    unfold validateBody
    exact validateBodyAux_error (normalizeLines raw)
      (firstFooterIdx (normalizeLines raw) - (i + 1)) (i + 1) j (by omega)
      (by omega) hnb hlong (fun k hk hkj => hpre k (by omega) hkj)
  · intro hok
    rw [hrun]
    unfold validateBody
    exact validateBodyAux_ok (normalizeLines raw)
      (firstFooterIdx (normalizeLines raw) - (i + 1)) (i + 1)
      (fun k hk1 hk2 => hok k (by omega) (by omega))

/-- Witness for C7: a 73-character body line fails with the body-line
reason citing 1-based line 3. -/
theorem body_line_length_rule_witness :
    (validateCommitMessage
        ("fix: a\n\n".toList ++ List.replicate 73 'b' ++ ['\n'])).snd =
      .error (.bodyLineTooLong 3) :=
  (body_line_length_rule ("fix: a\n\n".toList ++ List.replicate 73 'b' ++ ['\n'])
    "fix: a".toList 0 "fix".toList [] [] "a".toList (by decide) (by decide)
    (by decide) (by decide) (by decide)).1 2 (by decide) (by decide)
    (by decide) (by decide)
    (fun k hk1 hk2 => by
      have hk : k = 1 := by omega
      subst hk
      left
      decide)

/-! ## Well-formed headers (claim C2) -/

theorem isLowerAZ_not_pyspace {c : Char} (h : isLowerAZ c = true) :
    isPySpace c = false := by
  have h1 : ¬(c = ' ') := fun he => absurd h (by rw [he]; decide)
  have h2 : ¬(c = '\t') := fun he => absurd h (by rw [he]; decide)
  have h3 : ¬(c = '\n') := fun he => absurd h (by rw [he]; decide)
  have h4 : ¬(c = '\r') := fun he => absurd h (by rw [he]; decide)
  have h5 : ¬(c = '\x0b') := fun he => absurd h (by rw [he]; decide)
  have h6 : ¬(c = '\x0c') := fun he => absurd h (by rw [he]; decide)
  simp [isPySpace, h1, h2, h3, h4, h5, h6]

theorem matchSubject_space {subject : List Char}
    (h : firstIsLowerAZ subject = true) :
    matchSubject (' ' :: subject) = some subject := by
  cases subject with
  | nil => exact absurd h (by decide)
  | cons c rest =>
    have hc : isPySpace c = false := isLowerAZ_not_pyspace h
    unfold matchSubject
    rw [List.dropWhile_cons_of_pos (by decide : isPySpace ' ' = true),
      List.dropWhile_cons_of_neg (by rw [hc]; exact Bool.false_ne_true)]

theorem matchTail_bang_colon {subject : List Char}
    (h : firstIsLowerAZ subject = true) :
    matchTail ('!' :: ':' :: ' ' :: subject) = some (['!'], subject) := by
  simp [matchTail, matchSubject_space h]

theorem matchTail_colon {subject : List Char}
    (h : firstIsLowerAZ subject = true) :
    matchTail (':' :: ' ' :: subject) = some ([], subject) := by
  simp [matchTail, matchSubject_space h]

/-- `HEADER_RE` matches a well-formed header literally built from its
groups, and recovers exactly those groups. -/
theorem headerMatch_mkHeader (ty scope subject : List Char) (bang : Bool)
    (htyne : ty ≠ []) (htyall : ty.all isLowerAZ = true)
    (hscope : scope.all isScopeChar = true)
    (hsubj : firstIsLowerAZ subject = true) :
    headerMatch (mkHeader ty scope bang subject) =
      some (ty, scope, (if bang then ['!'] else []), subject) := by
  have hta : ∀ c ∈ ty, isLowerAZ c = true := List.all_eq_true.mp htyall
  by_cases hs : scope = []
  · subst hs
    cases bang with
    | true =>
      have e1 : mkHeader ty [] true subject =
          ty ++ '!' :: ':' :: ' ' :: subject := by
        simp [mkHeader]
      rw [e1]
      have ht : (ty ++ '!' :: ':' :: ' ' :: subject).takeWhile isLowerAZ =
          ty := by
        rw [takeWhile_append_of_all hta,
          List.takeWhile_cons_of_neg (by decide), List.append_nil]
      have hd : (ty ++ '!' :: ':' :: ' ' :: subject).dropWhile isLowerAZ =
          '!' :: ':' :: ' ' :: subject := by
        rw [dropWhile_append_of_all hta,
          List.dropWhile_cons_of_neg (by decide)]
      simp only [headerMatch, ht, hd]
      rw [if_neg htyne]
      simp [matchTail_bang_colon hsubj]
    | false =>
      have e1 : mkHeader ty [] false subject =
          ty ++ ':' :: ' ' :: subject := by
        simp [mkHeader]
      rw [e1]
      have ht : (ty ++ ':' :: ' ' :: subject).takeWhile isLowerAZ = ty := by
        rw [takeWhile_append_of_all hta,
          List.takeWhile_cons_of_neg (by decide), List.append_nil]
      have hd : (ty ++ ':' :: ' ' :: subject).dropWhile isLowerAZ =
          ':' :: ' ' :: subject := by
        rw [dropWhile_append_of_all hta,
          List.dropWhile_cons_of_neg (by decide)]
      simp only [headerMatch, ht, hd]
      rw [if_neg htyne]
      simp [matchTail_colon hsubj]
  · have hbody : ∀ c ∈ scope, (!(c = ')')) = true := by
      intro c hc
      have := List.all_eq_true.mp hscope c hc
      cases he : decide (c = ')') with
      | false => simp [of_decide_eq_false he]
      | true =>
        exfalso
        rw [of_decide_eq_true he] at this
        exact absurd this (by decide)
    cases hsc : scope with
    | nil => exact absurd hsc hs
    | cons s0 ss =>
      subst hsc
      cases bang with
      | true =>
        have e1 : mkHeader ty (s0 :: ss) true subject =
            ty ++ '(' :: ((s0 :: ss) ++ ')' :: '!' :: ':' :: ' ' :: subject) := by
          simp [mkHeader]
        rw [e1]
        have ht : (ty ++ '(' :: ((s0 :: ss) ++ ')' :: '!' :: ':' :: ' ' ::
            subject)).takeWhile isLowerAZ = ty := by
          rw [takeWhile_append_of_all hta,
            List.takeWhile_cons_of_neg (by decide), List.append_nil]
        have hd : (ty ++ '(' :: ((s0 :: ss) ++ ')' :: '!' :: ':' :: ' ' ::
            subject)).dropWhile isLowerAZ =
            '(' :: ((s0 :: ss) ++ ')' :: '!' :: ':' :: ' ' :: subject) := by
          rw [dropWhile_append_of_all hta,
            List.dropWhile_cons_of_neg (by decide)]
        have hbody2 : ∀ c ∈ ss, (!(c = ')')) = true :=
          fun c hc => hbody c (List.mem_cons_of_mem s0 hc)
        have hs0 : (!(s0 = ')')) = true := hbody s0 (List.mem_cons_self s0 ss)
        have htw : (s0 :: (ss ++ ')' :: '!' :: ':' :: ' ' ::
            subject)).takeWhile (fun d => !(d = ')')) = s0 :: ss := by
          rw [@List.takeWhile_cons_of_pos Char (fun d => !(d = ')')) s0 _ hs0,
            takeWhile_append_of_all hbody2,
            List.takeWhile_cons_of_neg (by decide), List.append_nil]
        have hdw : (s0 :: (ss ++ ')' :: '!' :: ':' :: ' ' ::
            subject)).dropWhile (fun d => !(d = ')')) =
            ')' :: '!' :: ':' :: ' ' :: subject := by
          rw [@List.dropWhile_cons_of_pos Char (fun d => !(d = ')')) s0 _ hs0,
            dropWhile_append_of_all hbody2,
            List.dropWhile_cons_of_neg (by decide)]
        simp only [headerMatch, ht, hd]
        rw [if_neg htyne]
        simp [htw, hdw, matchTail_bang_colon hsubj]
      | false =>
        have e1 : mkHeader ty (s0 :: ss) false subject =
            ty ++ '(' :: ((s0 :: ss) ++ ')' :: ':' :: ' ' :: subject) := by
          simp [mkHeader]
        rw [e1]
        have ht : (ty ++ '(' :: ((s0 :: ss) ++ ')' :: ':' :: ' ' ::
            subject)).takeWhile isLowerAZ = ty := by
          rw [takeWhile_append_of_all hta,
            List.takeWhile_cons_of_neg (by decide), List.append_nil]
        have hd : (ty ++ '(' :: ((s0 :: ss) ++ ')' :: ':' :: ' ' ::
            subject)).dropWhile isLowerAZ =
            '(' :: ((s0 :: ss) ++ ')' :: ':' :: ' ' :: subject) := by
          rw [dropWhile_append_of_all hta,
            List.dropWhile_cons_of_neg (by decide)]
        have hbody2 : ∀ c ∈ ss, (!(c = ')')) = true :=
          fun c hc => hbody c (List.mem_cons_of_mem s0 hc)
        have hs0 : (!(s0 = ')')) = true := hbody s0 (List.mem_cons_self s0 ss)
        have htw : (s0 :: (ss ++ ')' :: ':' :: ' ' ::
            subject)).takeWhile (fun d => !(d = ')')) = s0 :: ss := by
          rw [@List.takeWhile_cons_of_pos Char (fun d => !(d = ')')) s0 _ hs0,
            takeWhile_append_of_all hbody2,
            List.takeWhile_cons_of_neg (by decide), List.append_nil]
        have hdw : (s0 :: (ss ++ ')' :: ':' :: ' ' ::
            subject)).dropWhile (fun d => !(d = ')')) =
            ')' :: ':' :: ' ' :: subject := by
          rw [@List.dropWhile_cons_of_pos Char (fun d => !(d = ')')) s0 _ hs0,
            dropWhile_append_of_all hbody2,
            List.dropWhile_cons_of_neg (by decide)]
        simp only [headerMatch, ht, hd]
        rw [if_neg htyne]
        simp [htw, hdw, matchTail_colon hsubj]

/-- Evaluation of `validate_header` when the grammar matched and every
subsequent check passes. -/
theorem validateHeader_eval (ty scope bangStr subject : List Char)
    (header : Line)
    (hm : headerMatch header = some (ty, scope, bangStr, subject))
    (h1 : ty ∈ allowedTypes)
    (h2 : ¬(scope ≠ [] ∧ ¬(scope.all isScopeChar = true)))
    (h3 : ¬(subject.length < 1 ∨ 50 < subject.length))
    (h4 : subject.getLast? ≠ some '.')
    (h5 : firstIsLowerAZ subject = true)
    (h6 : subject.all allowedSubjectChar = true)
    (h7 : '!' ∉ subject) :
    validateHeader header = .ok (ty, scope, bangStr, subject) := by
  unfold validateHeader
  simp only [hm]
  rw [if_neg (not_not_intro h1), if_neg h2, if_neg h3, if_neg h4,
    if_neg (not_not_intro h5), if_neg (not_not_intro h6), if_neg h7]

/-- Claim C2: for every header of the form `type(scope)!: subject` with
optional scope and bang, a whitelisted type, a scope of letters, digits,
slashes and hyphens, and a subject of 1-50 characters that starts with a
lowercase letter, does not end in a period, stays in the allowed character
set and contains no exclamation mark, `validate_header` accepts and
returns exactly `(type, scope, bang, subject)`. -/
theorem valid_header_accepted (ty scope subject : List Char) (bang : Bool)
    (hty : ty ∈ allowedTypes)
    (hscope : scope.all isScopeChar = true)
    (hlen1 : 1 ≤ subject.length) (hlen2 : subject.length ≤ 50)
    (hlower : firstIsLowerAZ subject = true)
    (hdot : subject.getLast? ≠ some '.')
    (hchars : subject.all allowedSubjectChar = true)
    (hbang : '!' ∉ subject) :
    validateHeader (mkHeader ty scope bang subject) =
      .ok (ty, scope, (if bang then ['!'] else []), subject) := by
  have hfacts : ty ≠ [] ∧ ty.all isLowerAZ = true := by
    simp only [allowedTypes, List.mem_cons, List.not_mem_nil, or_false] at hty
    rcases hty with rfl | rfl | rfl | rfl | rfl | rfl | rfl | rfl <;>
      exact ⟨by decide, by decide⟩
  exact validateHeader_eval ty scope (if bang then ['!'] else []) subject
    (mkHeader ty scope bang subject)
    (headerMatch_mkHeader ty scope subject bang hfacts.1 hfacts.2 hscope hlower)
    hty (fun hcon => hcon.2 hscope) (by omega) hdot hlower hchars hbang

/-- Witness for C2: `feat(cli): add terse output flag` is accepted with
type `feat`, scope `cli`, no bang, and the expected subject. -/
theorem valid_header_accepted_witness :
    validateHeader (mkHeader "feat".toList "cli".toList false
        "add terse output flag".toList) =
      .ok ("feat".toList, "cli".toList, (if false then ['!'] else []),
        "add terse output flag".toList) :=
  valid_header_accepted "feat".toList "cli".toList
    "add terse output flag".toList false (by decide) (by decide) (by decide)
    (by decide) (by decide) (by decide) (by decide) (by decide)

/-! ## Single-line messages matching both grammars (claim C9) -/

theorem dropLead_some_append :
    ∀ {p s r : List Char}, dropLead p s = some r → s = p ++ r
  | [], _, _, h => by
    rw [dropLead] at h
    exact (Option.some.inj h).symm ▸ rfl
  | p :: ps, [], r, h => by
    rw [dropLead] at h
    exact Option.noConfusion h
  | p :: ps, c :: cs, r, h => by
    rw [dropLead] at h
    by_cases hpc : p = c
    · rw [if_pos hpc] at h
      rw [List.cons_append, ← dropLead_some_append h, hpc]
    · rw [if_neg hpc] at h
      exact Option.noConfusion h

theorem dropWhile_head_false {p : Char → Bool} :
    ∀ {l : List Char} {d : Char} {b : List Char},
      l.dropWhile p = d :: b → p d = false
  | [], d, b, h => by simp at h
  | x :: l, d, b, h => by
    by_cases hx : p x = true
    · rw [List.dropWhile_cons_of_pos hx] at h
      exact dropWhile_head_false h
    · rw [List.dropWhile_cons_of_neg hx] at h
      cases h
      exact Bool.not_eq_true _ ▸ (Bool.eq_false_iff.mpr hx)

/-- What a successful `FOOTER_RE` match says about the shape of the line:
either it starts with the literal `BREAKING CHANGE:`, or it has a non-empty
maximal token of letters and hyphens followed directly by a colon and a
whitespace character. -/
theorem footerMatches_true_elim {h : Line} (hfm : footerMatches h = true) :
    (∃ r, dropLead breakingColon h = some r) ∨
    (h.takeWhile isFooterTokenChar ≠ [] ∧
      ∃ c2 rest2, h.dropWhile isFooterTokenChar = ':' :: c2 :: rest2) := by
  unfold footerMatches at hfm
  rw [Bool.or_eq_true] at hfm
  rcases hfm with h1 | h2
  · left
    cases hdl : dropLead breakingColon h with
    | none => rw [hdl] at h1; simp at h1
    | some r => exact ⟨r, rfl⟩
  · right
    by_cases ht : h.takeWhile isFooterTokenChar = []
    · rw [if_pos ht] at h2
      exact absurd h2 Bool.false_ne_true
    · refine ⟨ht, ?_⟩
      rw [if_neg ht] at h2
      cases hdw : h.dropWhile isFooterTokenChar with
      | nil => rw [hdw] at h2; simp at h2
      | cons c rest =>
        rw [hdw] at h2
        simp only [] at h2
        by_cases hc : c = ':'
        · subst hc
          cases rest with
          | nil => simp at h2
          | cons c2 r2 => exact ⟨c2, r2, rfl⟩
        · rw [if_neg hc] at h2
          exact absurd h2 Bool.false_ne_true

/-- A header accepted by `HEADER_RE` cannot start with any auto-bypass
head: the two capitalized heads do not start with a lowercase type, and
the two `!`-suffixed heads put a space where the grammar requires a colon. -/
theorem header_ok_not_bypass {h : Line} {ty scope bang subj : List Char}
    (hm : headerMatch h = some (ty, scope, bang, subj)) :
    startsWithAnyBypass h = false := by
  cases hb : startsWithAnyBypass h
  · rfl
  · exfalso
    unfold startsWithAnyBypass bypassHeads at hb
    simp only [List.any_cons, List.any_nil, Bool.or_eq_true,
      Bool.or_false] at hb
    rcases hb with h1 | h2 | h3 | h4
    · obtain ⟨rest, rfl⟩ := leadsWith_iff_append.mp h1
      have hnone : headerMatch (['M', 'e', 'r', 'g', 'e', ' '] ++ rest) =
          none := rfl
      rw [hnone] at hm
      exact Option.noConfusion hm
    · obtain ⟨rest, rfl⟩ := leadsWith_iff_append.mp h2
      have hnone : headerMatch (['R', 'e', 'v', 'e', 'r', 't', ' '] ++ rest) =
          none := rfl
      rw [hnone] at hm
      exact Option.noConfusion hm
    · obtain ⟨rest, rfl⟩ := leadsWith_iff_append.mp h3
      have hnone : headerMatch (['f', 'i', 'x', 'u', 'p', '!', ' '] ++ rest) =
          none := rfl
      rw [hnone] at hm
      exact Option.noConfusion hm
    · obtain ⟨rest, rfl⟩ := leadsWith_iff_append.mp h4
      have hnone : headerMatch (['s', 'q', 'u', 'a', 's', 'h', '!', ' '] ++ rest) =
          none := rfl
      rw [hnone] at hm
      exact Option.noConfusion hm

/-- A line that both `HEADER_RE` and `FOOTER_RE` accept carries no breaking
flag: the footer grammar requires the colon to follow the token directly,
so a `!` (or a scope parenthesis) between them would already have broken
one of the two matches. -/
theorem both_grammar_no_bang {h : Line} {ty scope bang subj : List Char}
    (hm : headerMatch h = some (ty, scope, bang, subj))
    (hfm : footerMatches h = true) : bang = [] := by
  rcases footerMatches_true_elim hfm with ⟨r, hdl⟩ | ⟨htok, c2, rest2, hdw⟩
  · exfalso
    have hh : h = breakingColon ++ r := dropLead_some_append hdl
    rw [hh] at hm
    have hnone : headerMatch (breakingColon ++ r) = none := rfl
    rw [hnone] at hm
    exact Option.noConfusion hm
  · have hsplit : h.takeWhile isFooterTokenChar ++ ':' :: c2 :: rest2 = h := by
      rw [← hdw]
      exact List.takeWhile_append_dropWhile _ _
    have htokfc : ∀ c ∈ h.takeWhile isFooterTokenChar,
        isFooterTokenChar c = true :=
      fun c hc => List.mem_takeWhile_imp hc
    cases hdt : (h.takeWhile isFooterTokenChar).dropWhile isLowerAZ with
    | nil =>
      have htoklow : ∀ c ∈ h.takeWhile isFooterTokenChar,
          isLowerAZ c = true := by
        intro c hc
        have := List.takeWhile_append_dropWhile
          isLowerAZ (h.takeWhile isFooterTokenChar)
        rw [hdt, List.append_nil] at this
        rw [← this] at hc
        exact List.mem_takeWhile_imp hc
      have ht : h.takeWhile isLowerAZ = h.takeWhile isFooterTokenChar := by
        conv_lhs => rw [← hsplit]
        rw [takeWhile_append_of_all htoklow,
          List.takeWhile_cons_of_neg (by decide), List.append_nil]
      have hd : h.dropWhile isLowerAZ = ':' :: c2 :: rest2 := by
        conv_lhs => rw [← hsplit]
        rw [dropWhile_append_of_all htoklow,
          List.dropWhile_cons_of_neg (by decide)]
      simp only [headerMatch, ht, hd] at hm
      rw [if_neg htok] at hm
      have hmt : matchTail (':' :: c2 :: rest2) =
          (matchSubject (c2 :: rest2)).map (fun s => (([] : List Char), s)) := by
        simp [matchTail]
      simp only [if_neg (show ¬((':' : Char) = '(') by decide), hmt] at hm
      cases hms : matchSubject (c2 :: rest2) with
      | none =>
        rw [hms] at hm
        simp at hm
      | some sj =>
        rw [hms] at hm
        simp only [Option.map_some', Option.some.injEq, Prod.mk.injEq] at hm
        exact hm.2.2.1.symm
    | cons d b =>
      exfalso
      have htoksplit : (h.takeWhile isFooterTokenChar).takeWhile isLowerAZ ++
          d :: b = h.takeWhile isFooterTokenChar := by
        rw [← hdt]
        exact List.takeWhile_append_dropWhile _ _
      have hdfc : isFooterTokenChar d = true := by
        apply htokfc
        rw [← htoksplit]
        exact List.mem_append_right _ (List.mem_cons_self _ _)
      have hdlow : isLowerAZ d = false := dropWhile_head_false hdt
      have halow : ∀ c ∈ (h.takeWhile isFooterTokenChar).takeWhile isLowerAZ,
          isLowerAZ c = true :=
        fun c hc => List.mem_takeWhile_imp hc
      have hh2 : h = (h.takeWhile isFooterTokenChar).takeWhile isLowerAZ ++
          d :: (b ++ ':' :: c2 :: rest2) := by
        conv_lhs => rw [← hsplit, ← htoksplit]
        simp [List.append_assoc]
      have ht : h.takeWhile isLowerAZ =
          (h.takeWhile isFooterTokenChar).takeWhile isLowerAZ := by
        conv_lhs => rw [hh2]
        rw [takeWhile_append_of_all halow,
          List.takeWhile_cons_of_neg (by simp [hdlow]), List.append_nil]
      have hd2 : h.dropWhile isLowerAZ = d :: (b ++ ':' :: c2 :: rest2) := by
        conv_lhs => rw [hh2]
        rw [dropWhile_append_of_all halow,
          List.dropWhile_cons_of_neg (by simp [hdlow])]
      have hne1 : ¬(d = '(') := fun he => by
        rw [he] at hdfc
        exact absurd hdfc (by decide)
      have hne2 : ¬(d = '!') := fun he => by
        rw [he] at hdfc
        exact absurd hdfc (by decide)
      have hne3 : ¬(d = ':') := fun he => by
        rw [he] at hdfc
        exact absurd hdfc (by decide)
      simp only [headerMatch, ht, hd2] at hm
      by_cases hta : (h.takeWhile isFooterTokenChar).takeWhile isLowerAZ = []
      · rw [if_pos hta] at hm
        exact Option.noConfusion hm
      · rw [if_neg hta, if_neg hne1] at hm
        have hmt : matchTail (d :: (b ++ ':' :: c2 :: rest2)) = none := by
          cases hb0 : b ++ ':' :: c2 :: rest2 with
          | nil => simp [matchTail, hne2, hne3]
          | cons x xs => simp [matchTail, hne2, hne3]
        rw [hmt] at hm
        simp at hm

/-- A successful `validate_header` implies the grammar matched with exactly
the returned groups. -/
theorem validateHeader_ok_match {h : Line} {ty scope bang subj : List Char}
    (hvh : validateHeader h = .ok (ty, scope, bang, subj)) :
    headerMatch h = some (ty, scope, bang, subj) := by
  unfold validateHeader at hvh
  split at hvh
  · exact Except.noConfusion hvh
  · split at hvh
    · exact Except.noConfusion hvh
    · split at hvh
      · exact Except.noConfusion hvh
      · split at hvh
        · exact Except.noConfusion hvh
        · split at hvh
          · exact Except.noConfusion hvh
          · split at hvh
            · exact Except.noConfusion hvh
            · split at hvh
              · exact Except.noConfusion hvh
              · split at hvh
                · exact Except.noConfusion hvh
                · rename_i a b c d heq n1 n2 n3 n4 n5 n6 n7
                  rw [Except.ok.inj hvh] at heq
                  exact heq

theorem firstNonBlankIdx_blanks :
    ∀ (pre : List Line), (∀ l ∈ pre, isBlank l = true) →
      ∀ {h : Line}, isBlank h = false → ∀ (post : List Line),
      firstNonBlankIdx (pre ++ h :: post) = pre.length
  | [], _, _, hnb, post => by
    simp [firstNonBlankIdx, hnb]
  | p :: pre', hpre, h, hnb, post => by
    simp only [List.cons_append, firstNonBlankIdx, List.append_eq]
    rw [if_pos (hpre p (List.mem_cons_self p pre')),
      firstNonBlankIdx_blanks pre'
        (fun l hl => hpre l (List.mem_cons_of_mem p hl)) hnb post,
      List.length_cons]

theorem findHeaderAux_blanks :
    ∀ (pre : List Line), (∀ l ∈ pre, isBlank l = true) →
      ∀ {h : Line}, isBlank h = false → ∀ (post : List Line) (n : Nat),
      findHeaderAux (pre ++ h :: post) n = some (h, n + pre.length)
  | [], _, _, hnb, post, n => by
    simp [findHeaderAux, hnb]
  | p :: pre', hpre, h, hnb, post, n => by
    simp only [List.cons_append, findHeaderAux, List.append_eq]
    rw [if_pos (hpre p (List.mem_cons_self p pre')),
      findHeaderAux_blanks pre'
        (fun l hl => hpre l (List.mem_cons_of_mem p hl)) hnb post (n + 1),
      List.length_cons]
    have harith : n + 1 + pre'.length = n + (pre'.length + 1) := by omega
    rw [harith]

/-- Claim C9, counterexample: the single-line message `foo: update` has its
sole non-blank line matching both the header grammar and the trailer
grammar, and `collect_footers` classifies that line as a footer with
`first_footer_idx` equal to the header index 0 — but validation of the
message does *not* succeed: it fails the type whitelist. -/
theorem both_grammar_single_line_can_fail :
    (headerMatch "foo: update".toList).isSome = true ∧
    footerMatches "foo: update".toList = true ∧
    firstFooterIdx (normalizeLines "foo: update\n".toList) = 0 ∧
    footersOf (normalizeLines "foo: update\n".toList) = ["foo: update".toList] ∧
    (validateCommitMessage "foo: update\n".toList).snd =
      .error (.invalidType "foo".toList) := by
  decide

/-- Claim C9 (amended): for every message whose sole non-blank line matches
the trailer grammar, `collect_footers` classifies that line — the header —
as a footer: `first_footer_idx` equals the header index and the footer list
is exactly the header line.  When the line moreover matches the header
grammar and passes the forbidden-content check and the header checks,
validation of the message nevertheless succeeds (such a line can carry no
breaking flag, and the body range is empty). -/
theorem single_line_both_grammar (raw : List Char) (pre post : List Line)
    (h : Line) (ty scope bang subj : List Char)
    (hlines : normalizeLines raw = pre ++ h :: post)
    (hpre : ∀ l ∈ pre, isBlank l = true)
    (hpost : ∀ l ∈ post, isBlank l = true)
    (hnb : isBlank h = false)
    (hfm : footerMatches h = true)
    (hforb : ensureNoDiffOrIgnoreMarkers (joinLines (pre ++ h :: post)) =
      .ok ())
    (hvh : validateHeader h = .ok (ty, scope, bang, subj)) :
    firstFooterIdx (pre ++ h :: post) = pre.length ∧
    footersOf (pre ++ h :: post) = [h] ∧
    (validateCommitMessage raw).snd = .ok () := by
  have hm := validateHeader_ok_match hvh
  have hbang : bang = [] := both_grammar_no_bang hm hfm
  subst hbang
  have hbyp := header_ok_not_bypass hm
  have hallm : ∀ l ∈ pre ++ h :: post,
      isBlank l = true ∨ footerMatches l = true := by
    intro l hl
    rcases List.mem_append.mp hl with h1 | h2
    · exact Or.inl (hpre l h1)
    · rcases List.mem_cons.mp h2 with rfl | h3
      · exact Or.inr hfm
      · exact Or.inl (hpost l h3)
  have hffi : firstFooterIdx (pre ++ h :: post) = pre.length := by
    rw [firstFooterIdx_of_all_match _ hallm,
      firstNonBlankIdx_blanks pre hpre hnb post]
  have hfoot : footersOf (pre ++ h :: post) = [h] := by
    unfold footersOf
    rw [hffi, List.drop_left,
      List.filter_cons_of_pos (by rw [hnb]; rfl),
      List.filter_eq_nil_iff.mpr (fun a ha => by rw [hpost a ha]; decide)]
  have hfind : findHeader (normalizeLines raw) = some (h, pre.length) := by
    rw [hlines]
    unfold findHeader
    rw [findHeaderAux_blanks pre hpre hnb post 0]
    simp
  have hsnd := validateCommitMessage_snd_of_header raw h pre.length hfind
  rw [if_neg (by rw [hbyp]; exact Bool.false_ne_true)] at hsnd
  refine ⟨hffi, hfoot, ?_⟩
  rw [hsnd, hlines, hffi, hfoot]
  have hbrk : ensureBreakingFooterIfNeeded [] [h] = .ok () := rfl
  have hend : validateBody (pre ++ h :: post) pre.length pre.length =
      .ok () := by
    unfold validateBody
    rw [show pre.length - (pre.length + 1) = 0 from by omega]
    rfl
  simp only [runChecks, hforb, hvh, hbrk, hend]

/-- Witness for C9: `chore: update` alone in the message is classified as
a footer at index 0, and the message still validates. -/
theorem single_line_both_grammar_witness :
    firstFooterIdx ([] ++ "chore: update".toList :: [[]]) = 0 ∧
    footersOf ([] ++ "chore: update".toList :: [[]]) =
      ["chore: update".toList] ∧
    (validateCommitMessage "chore: update\n".toList).snd = .ok () :=
  single_line_both_grammar "chore: update\n".toList [] [[]]
    "chore: update".toList "chore".toList [] [] "update".toList
    (by decide) (by decide) (by decide) (by decide) (by decide) (by decide)
    (by decide)

end CommitMsg
